import Mathlib

/-!
Shallow embedding of the core logic of `ghinst` (a GitHub-release binary
installer written in Go) and proofs about it.

Asset names, paths and platform identifiers are modelled as `List Char`
(Go strings are byte strings; all names involved here are ASCII).
Byte payloads are modelled as `List Nat`.

The embedded functions mirror, definition by definition:
  - `selectAsset`, `osAliases`, `archAliases`, `isArchive`, `matchesAny`
    (identical in every snapshot of `main.go`),
  - `findInTar`, `findInZip`, `extractBinary` (from `main.go`),
  - `parseTarget` (the `owner/repo[@tag]` form),
  - `installBinary` and `purge` (from the snapshot that takes an explicit
    base directory and rolls back a partial install).
-/

/-- One step of `strings.Contains`: does the pattern `p` occur at the very
start of `s`?  Mirrors the byte-by-byte comparison Go performs. -/
def startsWithList : List Char → List Char → Bool
  | _, [] => true
  | [], _ :: _ => false
  | c :: s, d :: p => c == d && startsWithList s p

/-- Go `strings.Contains s p`: `p` occurs as a contiguous substring of `s`. -/
def containsSub : List Char → List Char → Bool
  | [], p => p.isEmpty
  | c :: t, p => startsWithList (c :: t) p || containsSub t p

/-- Go `strings.HasSuffix s suf`. -/
def hasSuffix (s suf : List Char) : Bool :=
  List.isSuffixOf suf s

/-- Go `strings.ToLower` restricted to ASCII (every name the program
manipulates is ASCII; `Char.toLower` is exactly the ASCII case map). -/
def toLowerStr (s : List Char) : List Char :=
  s.map Char.toLower

/-- Characters after the last `'/'` of a nonempty slash-free-suffix search;
helper for `baseName`. -/
def afterLastSlash (s : List Char) : List Char :=
  (s.reverse.takeWhile (fun c => c != '/')).reverse

/-- Go `filepath.Base`: empty path gives ".", all-slashes gives "/",
otherwise trailing slashes are dropped and the last component returned. -/
def baseName (s : List Char) : List Char :=
  if s.isEmpty then ['.']
  else
    let t := (s.reverse.dropWhile (fun c => c == '/')).reverse
    if t.isEmpty then ['/'] else afterLastSlash t

/-- Go `filepath.Ext` applied to a path's last component: the suffix starting
at the final dot, or the empty string when there is no dot. -/
def extOf (s : List Char) : List Char :=
  if s.contains '.' then '.' :: (s.reverse.takeWhile (fun c => c != '.')).reverse
  else []

/-- Go `strings.Cut s sep` for a one-character separator: (before, after,
found) around the first occurrence of `sep`. -/
def cut : List Char → Char → List Char × List Char × Bool
  | [], _ => ([], [], false)
  | c :: t, sep =>
    if c == sep then ([], t, true)
    else
      let r := cut t sep
      (c :: r.1, r.2.1, r.2.2)

/-- Go `strings.SplitN s sep 2` for a one-character separator: two pieces
around the first occurrence, or the whole string when `sep` is absent. -/
def splitN2 (s : List Char) (sep : Char) : List (List Char) :=
  let r := cut s sep
  if r.2.2 then [r.1, r.2.1] else [s]

/-- Go `filepath.Join` of two components (enough for the paths built here). -/
def pathJoin (a b : List Char) : List Char :=
  a ++ '/' :: b

/-- A release asset as decoded from the GitHub API (`type Asset`). -/
structure Asset where
  name : List Char
  browserDownloadURL : List Char
  size : Int
deriving Repr, DecidableEq

/-- The `osAliases` map: canonical GOOS value to the name phrases that
identify it inside an asset name. -/
def osAliases (goos : List Char) : Option (List (List Char)) :=
  if goos = "linux".data then some ["linux".data]
  else if goos = "darwin".data then some ["darwin".data, "macos".data, "osx".data]
  else if goos = "windows".data then some ["windows".data, "win".data]
  else none

/-- The `archAliases` map: canonical GOARCH value to its name phrases. -/
def archAliases (goarch : List Char) : Option (List (List Char)) :=
  if goarch = "amd64".data then some ["amd64".data, "x86_64".data]
  else if goarch = "arm64".data then some ["arm64".data, "aarch64".data]
  else if goarch = "386".data then some ["386".data, "i386".data, "i686".data]
  else none

/-- The `archiveExts` slice. -/
def archiveExts : List (List Char) :=
  [".tar.gz".data, ".tgz".data, ".tar.bz2".data, ".tar.xz".data, ".zip".data]

/-- The `isArchive` test: the name ends in one of the recognized archive extensions. -/
def isArchive (name : List Char) : Bool :=
  archiveExts.any (fun ext => hasSuffix name ext)

/-- The `matchesAny` test: some phrase occurs inside `s`. -/
def matchesAny (s : List Char) (phrases : List (List Char)) : Bool :=
  phrases.any (fun p => containsSub s p)

/-- The candidate filter of `selectAsset` (the body of its loop). -/
def assetMatches (osPhrases archPhrases : List (List Char)) (a : Asset) : Bool :=
  let lower := toLowerStr a.name
  matchesAny lower osPhrases && matchesAny lower archPhrases && isArchive lower

/-- The result of `sort.Slice(candidates, by name length)` followed by
`candidates[0]`: an element of minimal name length.  Go's `sort.Slice` is
unstable, so among equal-length minima the Go code's pick is unspecified;
this model deterministically picks the earliest minimal-length candidate,
which satisfies every property the sort guarantees (membership and
length-minimality). -/
def selectShortest : List Asset → Option Asset
  | [] => none
  | a :: rest =>
    match selectShortest rest with
    | none => some a
    | some b => if a.name.length ≤ b.name.length then some a else some b

/-- Errors `selectAsset` can report ("unsupported OS: …",
"unsupported architecture: …", "no asset found for …/…"). -/
inductive SelectError where
  | unsupportedOS
  | unsupportedArch
  | noMatchingAsset
deriving Repr, DecidableEq

/-- Does a `SelectError` denote the spec's `UnsupportedPlatform` kind? -/
def SelectError.isUnsupportedPlatform : SelectError → Bool
  | .unsupportedOS => true
  | .unsupportedArch => true
  | .noMatchingAsset => false

/-- The `selectAsset` function: filter assets by OS phrase, architecture phrase and
archive extension, then return a shortest-named candidate. -/
def selectAsset (assets : List Asset) (goos goarch : List Char) :
    Except SelectError Asset :=
  match osAliases goos with
  | none => .error .unsupportedOS
  | some osPhrases =>
    match archAliases goarch with
    | none => .error .unsupportedArch
    | some archPhrases =>
      match selectShortest (assets.filter (assetMatches osPhrases archPhrases)) with
      | none => .error .noMatchingAsset
      | some a => .ok a

example :
    selectAsset [⟨"tool_linux_amd64.tar.gz".data, [], 0⟩,
                 ⟨"tool_linux_amd64.tar.gz.sha256".data, [], 0⟩]
      "linux".data "amd64".data
    = .ok ⟨"tool_linux_amd64.tar.gz".data, [], 0⟩ := by rfl

/-- Errors the extraction layer can report. -/
inductive ExtractError where
  | noExecutableFound
  | badArchive
deriving Repr, DecidableEq

/-- A tar entry: header name, type flag byte, permission bits of the header
mode, and the entry's (already decompressed) content bytes. -/
structure TarEntry where
  name : List Char
  typeflag : Char
  mode : Nat
  content : List Nat
deriving Repr, DecidableEq

/-- Go `tar.TypeReg`. -/
def tarTypeReg : Char := '0'

/-- Go `tar.TypeDir` (used only in statements). -/
def tarTypeDir : Char := '5'

/-- Go `tar.TypeSymlink` (used only in statements). -/
def tarTypeSymlink : Char := '2'

/-- The `findInTar` scan: first regular-file entry with an execute permission bit;
its base name and content are returned, otherwise the scan reports
"no executable found in archive".  (I/O read errors are outside the model:
the stream is given as its decoded entry list.) -/
def findInTar : List TarEntry → Except ExtractError (List Char × List Nat)
  | [] => .error .noExecutableFound
  | hdr :: rest =>
    if hdr.typeflag != tarTypeReg || hdr.mode &&& 0o111 == 0 then findInTar rest
    else .ok (baseName hdr.name, hdr.content)

/-- A zip entry: stored name, directory flag (`FileInfo().IsDir()`),
permission bits of the stored mode, and content bytes. -/
structure ZipEntry where
  name : List Char
  isDir : Bool
  mode : Nat
  content : List Nat
deriving Repr, DecidableEq

/-- The scanning loop of `findInZip`, with the `fallback` variable made an
explicit accumulator.  For each non-directory entry: if it is executable or
extensionless it becomes the fallback when none is recorded yet; an
executable entry is returned immediately. -/
def findInZipGo : List ZipEntry → Option ZipEntry →
    Except ExtractError (List Char × List Nat)
  | [], fallback =>
    match fallback with
    | some f => .ok (baseName f.name, f.content)
    | none => .error .noExecutableFound
  | f :: rest, fallback =>
    if f.isDir then findInZipGo rest fallback
    else
      let base := baseName f.name
      let isExec := f.mode &&& 0o111 != 0
      let noExt := extOf base == []
      let fallback2 := if (isExec || noExt) && fallback.isNone then some f else fallback
      if isExec then .ok (base, f.content)
      else findInZipGo rest fallback2

/-- The `findInZip` function over the archive's decoded entry listing. -/
def findInZip (entries : List ZipEntry) : Except ExtractError (List Char × List Nat) :=
  findInZipGo entries none

/-- The `extractBinary` function: dispatch on the lowercased asset-name suffix.  The
gzip/bzip2/zip byte-level decoders are external library code, abstracted as
parameters that either yield the archive's entry listing or fail (a
corrupted stream).  Any unrecognized suffix falls through to the raw-binary
branch, which returns the asset name and bytes unchanged. -/
def extractBinary
    (decodeGzipTar decodeBzip2Tar : List Nat → Except ExtractError (List TarEntry))
    (decodeZip : List Nat → Except ExtractError (List ZipEntry))
    (data : List Nat) (assetName : List Char) :
    Except ExtractError (List Char × List Nat) :=
  let lower := toLowerStr assetName
  if hasSuffix lower ".tar.gz".data || hasSuffix lower ".tgz".data then
    (decodeGzipTar data).bind findInTar
  else if hasSuffix lower ".tar.bz2".data then
    (decodeBzip2Tar data).bind findInTar
  else if hasSuffix lower ".zip".data then
    (decodeZip data).bind findInZip
  else
    .ok (assetName, data)

/-- The error of `parseTarget` ("invalid target …: expected owner/repo[@version]"). -/
inductive ParseError where
  | invalidTarget
deriving Repr, DecidableEq

/-- The `parseTarget` function: cut at the first `'@'`, split the slug at its first
`'/'`, and require a nonempty owner and repo. -/
def parseTarget (s : List Char) :
    Except ParseError (List Char × List Char × List Char) :=
  let c := cut s '@'
  match splitN2 c.1 '/' with
  | [o, r] => if o.isEmpty || r.isEmpty then .error .invalidTarget else .ok (o, r, c.2.1)
  | _ => .error .invalidTarget

/-- Errors of the fallible filesystem steps inside `installBinary`. -/
inductive InstallError where
  | mkdirInstallFailed
  | openFailed
  | copyFailed
  | mkdirLinkFailed
  | symlinkFailed
deriving Repr, DecidableEq

/-- Outcome oracle for the fallible filesystem operations `installBinary`
performs, in program order.  (`dst.Close`, `os.Chtimes` and the
`os.Remove` of a stale symlink have their errors ignored by the code and
so do not appear.) -/
structure InstallEnv where
  mkInstallDirOk : Bool
  openOk : Bool
  copyOk : Bool
  mkLinkDirOk : Bool
  symlinkOk : Bool
deriving Repr, DecidableEq

/-- What `installBinary` leaves behind: its return value and whether the
version directory `<base>/ghinst/<owner>/<repo>@<tag>` exists on return. -/
structure InstallOutcome where
  result : Except InstallError (List Char)
  installDirExists : Bool
deriving Repr

/-- The `installBinary` function (the snapshot taking an explicit base directory): make
the version directory, write the binary, refresh the directory mtime, make
the link directory and republish the symlink.  A deferred handler removes
the version directory whenever the function returns a non-nil error after
the directory was created; this is modelled by `installDirExists := false`
on every error path past the first `MkdirAll`. -/
def installBinary (env : InstallEnv)
    (baseDir owner repo tag binName : List Char) : InstallOutcome :=
  let installDir := pathJoin (pathJoin (pathJoin baseDir "ghinst".data) owner)
    (repo ++ '@' :: tag)
  let binPath := pathJoin installDir binName
  let linkPath := pathJoin (pathJoin baseDir "bin".data) binName
  if !env.mkInstallDirOk then
    -- MkdirAll failed: the version directory was not created.
    ⟨.error .mkdirInstallFailed, false⟩
  else if !env.openOk then ⟨.error .openFailed, false⟩
  else if !env.copyOk then ⟨.error .copyFailed, false⟩
  else if !env.mkLinkDirOk then ⟨.error .mkdirLinkFailed, false⟩
  else if !env.symlinkOk then ⟨.error .symlinkFailed, false⟩
  else
    let _ := binPath
    ⟨.ok linkPath, true⟩

/-- A directory entry as returned by `os.ReadDir`, with the modification
time it reports (an integer timestamp). -/
structure FSEntry where
  name : List Char
  isDir : Bool
  modTime : Int
deriving Repr, DecidableEq

/-- The comparison `purge` sorts by (ascending modification time). -/
def modTimeLE (a b : FSEntry) : Prop :=
  a.modTime ≤ b.modTime

instance : DecidableRel modTimeLE := fun a b => Int.decLe a.modTime b.modTime

instance : IsTotal FSEntry modTimeLE := ⟨fun a b => Int.le_total a.modTime b.modTime⟩

instance : IsTrans FSEntry modTimeLE := ⟨fun _ _ _ => Int.le_trans⟩

/-- The version filter inside `purge`: directory entries whose name cuts at
an `'@'` into exactly the repo name followed by anything. -/
def purgeVersions (entries : List FSEntry) (repo : List Char) : List FSEntry :=
  entries.filter fun e =>
    e.isDir && ((cut e.name '@').2.2 && (cut e.name '@').1 == repo)

/-- The directories `purge` deletes, given the listing of the owner
directory: nothing when at most one version exists, otherwise everything
except the last element of the mod-time-ascending sort.  Go's `sort.Slice`
is unstable, so which of several maximal-mod-time directories survives is
unspecified; the model uses a deterministic sort, which realizes one of the
permitted outcomes. -/
def purgeDeleted (entries : List FSEntry) (repo : List Char) : List FSEntry :=
  let versions := purgeVersions entries repo
  if versions.length ≤ 1 then []
  else (List.insertionSort modTimeLE versions).dropLast

theorem cut_fst (s : List Char) (sep : Char) :
    (cut s sep).1 = s.takeWhile (fun c => c != sep) := by
  induction s with
  | nil => rfl
  | cons c t ih =>
    by_cases h : c = sep
    · simp [cut, h, List.takeWhile_cons]
    · simp [cut, h, List.takeWhile_cons, ih]

theorem cut_found_decomp (s : List Char) (sep : Char)
    (h : (cut s sep).2.2 = true) :
    sep ∉ (cut s sep).1 ∧ s = (cut s sep).1 ++ sep :: (cut s sep).2.1 := by
  induction s with
  | nil => simp [cut] at h
  | cons c t ih =>
    by_cases hc : c = sep
    · simp [cut, hc]
    · simp only [cut, beq_iff_eq, if_neg hc] at h ⊢
      refine ⟨?_, ?_⟩
      · intro hmem
        rcases List.mem_cons.1 hmem with h1 | h1
        · exact hc h1.symm
        · exact (ih h).1 h1
      · simpa using (ih h).2

theorem cut_of_decomp (o r : List Char) (sep : Char) (h : sep ∉ o) :
    cut (o ++ sep :: r) sep = (o, r, true) := by
  induction o with
  | nil => simp [cut]
  | cons c t ih =>
    have hc : ¬(c = sep) := fun he => h (he ▸ List.mem_cons_self c t)
    have ht : sep ∉ t := fun hm => h (List.mem_cons_of_mem c hm)
    simp [cut, hc, ih ht]

/-- C10: `parseTarget` fails exactly when the portion of the input before
the first `'@'` does not split at its first `'/'` into a non-empty owner
and a non-empty remainder; in particular `"a/b/c"` parses as owner `"a"`
and repo `"b/c"`, and a trailing `'@'` is accepted with an empty tag. -/
theorem parseTarget_spec (s : List Char) :
    ((∃ o r t, parseTarget s = .ok (o, r, t)) ↔
      ∃ o r, o ≠ [] ∧ r ≠ [] ∧ '/' ∉ o ∧
        s.takeWhile (fun c => c != '@') = o ++ '/' :: r) ∧
    parseTarget "a/b/c".data = .ok ("a".data, "b/c".data, []) ∧
    parseTarget "owner/repo@".data = .ok ("owner".data, "repo".data, []) := by
  refine ⟨⟨?_, ?_⟩, by rfl, by rfl⟩
  · rintro ⟨o, r, t, h⟩
    simp only [parseTarget, splitN2] at h
    by_cases hf : (cut (cut s '@').1 '/').2.2 = true
    · rw [if_pos hf] at h
      by_cases h1 : (cut (cut s '@').1 '/').1.isEmpty = true
      · simp [h1] at h
      · by_cases h2 : (cut (cut s '@').1 '/').2.1.isEmpty = true
        · simp [h2] at h
        · simp only [h1, h2, Bool.or_false, if_neg, Bool.false_eq_true,
            not_false_iff, Except.ok.injEq] at h
          obtain ⟨hnd, heq⟩ := cut_found_decomp (cut s '@').1 '/' hf
          refine ⟨(cut (cut s '@').1 '/').1, (cut (cut s '@').1 '/').2.1,
            ?_, ?_, hnd, ?_⟩
          · simpa [List.isEmpty_iff] using h1
          · simpa [List.isEmpty_iff] using h2
          · rw [← cut_fst]; exact heq
    · simp [hf] at h
  · rintro ⟨o, r, ho, hr, hno, hdecomp⟩
    have hslug : (cut s '@').1 = o ++ '/' :: r := by rw [cut_fst]; exact hdecomp
    refine ⟨o, r, (cut s '@').2.1, ?_⟩
    simp only [parseTarget, splitN2]
    rw [hslug, cut_of_decomp o r '/' hno]
    simp [List.isEmpty_iff, ho, hr]

theorem selectShortest_eq_none {l : List Asset} (h : selectShortest l = none) :
    l = [] := by
  cases l with
  | nil => rfl
  | cons a rest =>
    unfold selectShortest at h
    cases hr : selectShortest rest <;> simp [hr] at h
    split at h <;> simp at h

theorem selectShortest_mem : ∀ {l : List Asset} {a : Asset},
    selectShortest l = some a → a ∈ l := by
  intro l
  induction l with
  | nil => intro a h; simp [selectShortest] at h
  | cons x rest ih =>
    intro a h
    unfold selectShortest at h
    cases hr : selectShortest rest with
    | none => rw [hr] at h; simp at h; simp [h]
    | some b =>
      rw [hr] at h
      by_cases hle : x.name.length ≤ b.name.length
      · simp [hle] at h; simp [h]
      · simp [hle] at h
        exact List.mem_cons_of_mem x (h ▸ ih hr)

theorem selectShortest_min : ∀ {l : List Asset} {a : Asset},
    selectShortest l = some a → ∀ b ∈ l, a.name.length ≤ b.name.length := by
  intro l
  induction l with
  | nil => intro a h; simp [selectShortest] at h
  | cons x rest ih =>
    intro a h b hb
    unfold selectShortest at h
    cases hr : selectShortest rest with
    | none =>
      rw [hr] at h; simp at h
      have : rest = [] := selectShortest_eq_none hr
      subst this
      rcases List.mem_cons.1 hb with h1 | h1
      · subst h; subst h1; exact le_refl _
      · simp at h1
    | some c =>
      rw [hr] at h
      by_cases hle : x.name.length ≤ c.name.length
      · simp [hle] at h
        subst h
        rcases List.mem_cons.1 hb with h1 | h1
        · subst h1; exact le_refl _
        · exact le_trans hle (ih hr b h1)
      · simp [hle] at h
        subst h
        rcases List.mem_cons.1 hb with h1 | h1
        · subst h1; exact le_of_lt (lt_of_not_le hle)
        · exact ih hr b h1

/-- C1: whenever `selectAsset` succeeds for a platform covered by the alias
tables, the returned asset comes from the input list, its lowercased name
contains at least one OS phrase and at least one architecture phrase and
ends in a recognized archive extension, and its original name length is
minimal among all assets of the list passing that filter. -/
theorem selectAsset_returns_minimal_match
    (assets : List Asset) (goos goarch : List Char)
    (osPhrases archPhrases : List (List Char)) (a : Asset)
    (hos : osAliases goos = some osPhrases)
    (harch : archAliases goarch = some archPhrases)
    (hsel : selectAsset assets goos goarch = .ok a) :
    a ∈ assets ∧
    (∃ p ∈ osPhrases, containsSub (toLowerStr a.name) p = true) ∧
    (∃ p ∈ archPhrases, containsSub (toLowerStr a.name) p = true) ∧
    (∃ ext ∈ archiveExts, hasSuffix (toLowerStr a.name) ext = true) ∧
    ∀ b ∈ assets, assetMatches osPhrases archPhrases b = true →
      a.name.length ≤ b.name.length := by
  simp only [selectAsset, hos, harch] at hsel
  cases hss : selectShortest (assets.filter (assetMatches osPhrases archPhrases)) with
  | none => rw [hss] at hsel; simp at hsel
  | some c =>
    rw [hss] at hsel
    simp only [Except.ok.injEq] at hsel
    subst hsel
    have hmem := selectShortest_mem hss
    have hmf := List.mem_filter.1 hmem
    have hmatch := hmf.2
    simp only [assetMatches, Bool.and_eq_true, matchesAny, isArchive,
      List.any_eq_true] at hmatch
    refine ⟨hmf.1, hmatch.1.1, hmatch.1.2, hmatch.2, ?_⟩
    intro b hb hbm
    exact selectShortest_min hss b (List.mem_filter.2 ⟨hb, hbm⟩)

theorem selectAsset_returns_minimal_match_witness :
    osAliases "linux".data = some ["linux".data] ∧
    archAliases "amd64".data = some ["amd64".data, "x86_64".data] ∧
    selectAsset [⟨"tool_linux_amd64.tar.gz".data, [], 0⟩,
                 ⟨"tool_linux_amd64.tar.gz.sha256".data, [], 0⟩]
        "linux".data "amd64".data
      = .ok ⟨"tool_linux_amd64.tar.gz".data, [], 0⟩ ∧
    ((⟨"tool_linux_amd64.tar.gz".data, [], 0⟩ : Asset) ∈
        [⟨"tool_linux_amd64.tar.gz".data, [], 0⟩,
         ⟨"tool_linux_amd64.tar.gz.sha256".data, [], 0⟩] ∧
      (∃ p ∈ ["linux".data],
        containsSub (toLowerStr "tool_linux_amd64.tar.gz".data) p = true) ∧
      (∃ p ∈ ["amd64".data, "x86_64".data],
        containsSub (toLowerStr "tool_linux_amd64.tar.gz".data) p = true) ∧
      (∃ ext ∈ archiveExts,
        hasSuffix (toLowerStr "tool_linux_amd64.tar.gz".data) ext = true) ∧
      ∀ b ∈ [⟨"tool_linux_amd64.tar.gz".data, [], 0⟩,
             ⟨"tool_linux_amd64.tar.gz.sha256".data, [], 0⟩],
        assetMatches ["linux".data] ["amd64".data, "x86_64".data] b = true →
          ("tool_linux_amd64.tar.gz".data).length ≤ b.name.length) :=
  ⟨rfl, rfl, rfl,
    selectAsset_returns_minimal_match _ "linux".data "amd64".data _ _ _ rfl rfl rfl⟩

/-- C5: when either platform axis is missing from its alias table,
`selectAsset` reports an unsupported-platform error for every asset list,
and the asset list has no influence (the result equals the result on the
empty list). -/
theorem selectAsset_unsupportedPlatform
    (assets : List Asset) (goos goarch : List Char)
    (h : osAliases goos = none ∨ archAliases goarch = none) :
    ∃ e, selectAsset assets goos goarch = .error e ∧
      e.isUnsupportedPlatform = true ∧
      selectAsset assets goos goarch = selectAsset [] goos goarch := by
  rcases h with h | h
  · exact ⟨.unsupportedOS, by simp [selectAsset, h], rfl, by simp [selectAsset, h]⟩
  · cases hos : osAliases goos with
    | none =>
      exact ⟨.unsupportedOS, by simp [selectAsset, hos], rfl, by simp [selectAsset, hos]⟩
    | some osP =>
      exact ⟨.unsupportedArch, by simp [selectAsset, hos, h], rfl,
        by simp [selectAsset, hos, h]⟩

theorem selectAsset_unsupportedPlatform_witness :
    (osAliases "plan9".data = none ∨ archAliases "amd64".data = none) ∧
    (∃ e, selectAsset [⟨"tool_linux_amd64.tar.gz".data, [], 0⟩]
        "plan9".data "amd64".data = .error e ∧
      e.isUnsupportedPlatform = true ∧
      selectAsset [⟨"tool_linux_amd64.tar.gz".data, [], 0⟩]
          "plan9".data "amd64".data
        = selectAsset [] "plan9".data "amd64".data) :=
  ⟨Or.inl rfl,
    selectAsset_unsupportedPlatform [⟨"tool_linux_amd64.tar.gz".data, [], 0⟩]
      "plan9".data "amd64".data (Or.inl rfl)⟩

/-- C6: for a platform covered by the alias tables, `selectAsset` reports
`NoMatchingAsset` exactly when the list is empty or no asset passes the
OS-phrase, architecture-phrase and archive-extension filter. -/
theorem selectAsset_noMatchingAsset_iff
    (assets : List Asset) (goos goarch : List Char)
    (osPhrases archPhrases : List (List Char))
    (hos : osAliases goos = some osPhrases)
    (harch : archAliases goarch = some archPhrases) :
    selectAsset assets goos goarch = .error .noMatchingAsset ↔
      (assets = [] ∨
        ∀ b ∈ assets, assetMatches osPhrases archPhrases b = false) := by
  simp only [selectAsset, hos, harch]
  constructor
  · intro h
    cases hss : selectShortest (assets.filter (assetMatches osPhrases archPhrases)) with
    | some c => rw [hss] at h; simp at h
    | none =>
      right
      have hnil := selectShortest_eq_none hss
      intro b hb
      by_contra hcon
      have hmem : b ∈ assets.filter (assetMatches osPhrases archPhrases) :=
        List.mem_filter.2 ⟨hb, by simpa using hcon⟩
      rw [hnil] at hmem
      simp at hmem
  · intro h
    have hfil : assets.filter (assetMatches osPhrases archPhrases) = [] := by
      rcases h with h | h
      · subst h; rfl
      · exact List.filter_eq_nil_iff.2 fun b hb => by simp [h b hb]
    rw [hfil]
    simp [selectShortest]

theorem selectAsset_noMatchingAsset_iff_witness :
    osAliases "windows".data = some ["windows".data, "win".data] ∧
    archAliases "amd64".data = some ["amd64".data, "x86_64".data] ∧
    (selectAsset [⟨"tool_linux_amd64.tar.gz".data, [], 0⟩]
        "windows".data "amd64".data = .error .noMatchingAsset ↔
      ([(⟨"tool_linux_amd64.tar.gz".data, [], 0⟩ : Asset)] = [] ∨
        ∀ b ∈ [(⟨"tool_linux_amd64.tar.gz".data, [], 0⟩ : Asset)],
          assetMatches ["windows".data, "win".data]
            ["amd64".data, "x86_64".data] b = false)) :=
  ⟨rfl, rfl,
    selectAsset_noMatchingAsset_iff [⟨"tool_linux_amd64.tar.gz".data, [], 0⟩]
      "windows".data "amd64".data _ _ rfl rfl⟩

/-- C9: substring matching together with the "win" alias makes any name
containing "darwin" match the windows OS axis: on the single-asset list
`["tool_darwin_amd64.tar.gz"]`, selection for (windows, amd64) succeeds and
returns the darwin asset even though its name contains no windows
identifier. -/
theorem selectAsset_windows_matches_darwin :
    selectAsset [⟨"tool_darwin_amd64.tar.gz".data, [], 0⟩]
        "windows".data "amd64".data
      = .ok ⟨"tool_darwin_amd64.tar.gz".data, [], 0⟩ ∧
    containsSub (toLowerStr "tool_darwin_amd64.tar.gz".data) "win".data = true ∧
    containsSub (toLowerStr "tool_darwin_amd64.tar.gz".data) "windows".data = false ∧
    containsSub (toLowerStr "tool_darwin_amd64.tar.gz".data) "darwin".data = true :=
  ⟨rfl, by decide, by decide, by decide⟩

/-- The selection test of `findInTar`: a regular-file entry with at least
one execute permission bit (owner, group or other). -/
def tarExecPred (e : TarEntry) : Bool :=
  e.typeflag == tarTypeReg && e.mode &&& 0o111 != 0

/-- C3: `findInTar` returns the base name (directory components stripped)
and content of the first entry in stream order that is a regular file with
at least one execute permission bit; directory, symlink and non-executable
regular-file entries are skipped without error, and the scan fails with the
no-executable error when the stream ends with no such entry. -/
theorem findInTar_first_executable (entries : List TarEntry) :
    findInTar entries =
      match entries.find? tarExecPred with
      | some e => .ok (baseName e.name, e.content)
      | none => .error .noExecutableFound := by
  induction entries with
  | nil => rfl
  | cons e rest ih =>
    have hneg : (e.typeflag != tarTypeReg || e.mode &&& 0o111 == 0)
        = !(tarExecPred e) := by
      cases hA : (e.typeflag == tarTypeReg) <;> cases hB : (e.mode &&& 0o111 == 0) <;>
        simp [tarExecPred, bne, hA, hB]
    rw [List.find?_cons]
    cases hp : tarExecPred e with
    | true =>
      simp only [findInTar, hneg, hp, Bool.not_true, Bool.false_eq_true, if_false]
    | false =>
      simp only [findInTar, hneg, hp, Bool.not_false, if_true]
      exact ih

/-- The winning test of `findInZip`: a non-directory entry with an execute
permission bit. -/
def zipExecPred (e : ZipEntry) : Bool :=
  !e.isDir && e.mode &&& 0o111 != 0

/-- The fallback test of `findInZip`: a non-directory entry whose base name
has no extension. -/
def zipNoExtPred (e : ZipEntry) : Bool :=
  !e.isDir && extOf (baseName e.name) == []

theorem findInZipGo_spec (entries : List ZipEntry) :
    ∀ fb, findInZipGo entries fb =
      match entries.find? zipExecPred with
      | some e => .ok (baseName e.name, e.content)
      | none =>
        match fb with
        | some f => .ok (baseName f.name, f.content)
        | none =>
          match entries.find? zipNoExtPred with
          | some e => .ok (baseName e.name, e.content)
          | none => .error .noExecutableFound := by
  induction entries with
  | nil => intro fb; cases fb <;> rfl
  | cons e rest ih =>
    intro fb
    rw [List.find?_cons, List.find?_cons]
    cases hd : e.isDir with
    | true =>
      have he : zipExecPred e = false := by simp [zipExecPred, hd]
      have hn : zipNoExtPred e = false := by simp [zipNoExtPred, hd]
      rw [he, hn]
      simp only [findInZipGo, hd, if_true]
      exact ih fb
    | false =>
      cases hex : (e.mode &&& 0o111 != 0) with
      | true =>
        have he : zipExecPred e = true := by simp [zipExecPred, hd, hex]
        rw [he]
        simp [findInZipGo, hd, hex]
      | false =>
        have he : zipExecPred e = false := by simp [zipExecPred, hd, hex]
        rw [he]
        cases hnx : (extOf (baseName e.name) == ([] : List Char)) with
        | true =>
          have hn : zipNoExtPred e = true := by simp [zipNoExtPred, hd, hnx]
          rw [hn]
          cases fb with
          | none =>
            simp only [findInZipGo, hd, hex, hnx, Bool.false_eq_true, if_false,
              Bool.false_or, Option.isNone_none, Bool.and_true, if_true]
            rw [ih (some e)]
          | some f =>
            simp only [findInZipGo, hd, hex, hnx, Bool.false_eq_true, if_false,
              Bool.false_or, Option.isNone_some, Bool.and_false]
            rw [ih (some f)]
        | false =>
          have hn : zipNoExtPred e = false := by simp [zipNoExtPred, hd, hnx]
          rw [hn]
          simp only [findInZipGo, hd, hex, hnx, Bool.false_eq_true, if_false,
            Bool.or_self, Bool.false_and]
          exact ih fb

/-- C2: `findInZip` returns the first non-directory entry carrying an
execute permission bit (its base name and content), even when an
extensionless non-executable entry appears earlier in the listing; when no
entry carries an execute bit it returns the first non-directory entry whose
base name has no extension; when neither exists it fails with the
no-executable error. -/
theorem findInZip_two_tier (entries : List ZipEntry) :
    findInZip entries =
      match entries.find? zipExecPred with
      | some e => .ok (baseName e.name, e.content)
      | none =>
        match entries.find? zipNoExtPred with
        | some e => .ok (baseName e.name, e.content)
        | none => .error .noExecutableFound := by
  rw [findInZip, findInZipGo_spec entries none]

/-- C4: for an asset name whose lowercased form ends in none of `.tar.gz`,
`.tgz`, `.tar.bz2`, `.zip`, `extractBinary` returns the original name and
the input bytes unchanged and never fails, whatever the decoders do; and a
name ending in `.tar.xz` (which therefore takes this raw-binary branch) is
nevertheless accepted by the selector's archive filter. -/
theorem extractBinary_raw_passthrough
    (dg db : List Nat → Except ExtractError (List TarEntry))
    (dz : List Nat → Except ExtractError (List ZipEntry))
    (data : List Nat) (assetName : List Char)
    (h1 : hasSuffix (toLowerStr assetName) ".tar.gz".data = false)
    (h2 : hasSuffix (toLowerStr assetName) ".tgz".data = false)
    (h3 : hasSuffix (toLowerStr assetName) ".tar.bz2".data = false)
    (h4 : hasSuffix (toLowerStr assetName) ".zip".data = false) :
    extractBinary dg db dz data assetName = .ok (assetName, data) ∧
    (hasSuffix (toLowerStr assetName) ".tar.xz".data = true →
      isArchive (toLowerStr assetName) = true) := by
  constructor
  · simp [extractBinary, h1, h2, h3, h4]
  · intro hxz
    simp [isArchive, archiveExts, hxz]

theorem extractBinary_raw_passthrough_witness :
    hasSuffix (toLowerStr "tool.tar.xz".data) ".tar.gz".data = false ∧
    hasSuffix (toLowerStr "tool.tar.xz".data) ".tgz".data = false ∧
    hasSuffix (toLowerStr "tool.tar.xz".data) ".tar.bz2".data = false ∧
    hasSuffix (toLowerStr "tool.tar.xz".data) ".zip".data = false ∧
    (extractBinary (fun _ => .error .badArchive) (fun _ => .error .badArchive)
        (fun _ => .error .badArchive) [7, 7, 7] "tool.tar.xz".data
      = .ok ("tool.tar.xz".data, [7, 7, 7]) ∧
      (hasSuffix (toLowerStr "tool.tar.xz".data) ".tar.xz".data = true →
        isArchive (toLowerStr "tool.tar.xz".data) = true)) :=
  ⟨by decide, by decide, by decide, by decide,
    extractBinary_raw_passthrough (fun _ => .error .badArchive)
      (fun _ => .error .badArchive) (fun _ => .error .badArchive)
      [7, 7, 7] "tool.tar.xz".data (by decide) (by decide) (by decide) (by decide)⟩

/-- C7: once the version directory has been created (the first `MkdirAll`
succeeded), every failing run of `installBinary` removes the partially
created version directory before returning its error, so no partial
install is left behind. -/
theorem installBinary_rollback (env : InstallEnv)
    (baseDir owner repo tag binName : List Char)
    (hmk : env.mkInstallDirOk = true) (e : InstallError)
    (herr : (installBinary env baseDir owner repo tag binName).result = .error e) :
    (installBinary env baseDir owner repo tag binName).installDirExists = false := by
  rcases env with ⟨mk, op, cp, ml, sl⟩
  simp only at hmk
  subst hmk
  cases op <;> cases cp <;> cases ml <;> cases sl <;>
    simp_all [installBinary]

theorem installBinary_rollback_witness :
    (InstallEnv.mk true true true true false).mkInstallDirOk = true ∧
    (installBinary (InstallEnv.mk true true true true false) "/base".data
        "owner".data "repo".data "v1".data "tool".data).result
      = .error .symlinkFailed ∧
    (installBinary (InstallEnv.mk true true true true false) "/base".data
        "owner".data "repo".data "v1".data "tool".data).installDirExists = false :=
  ⟨rfl, rfl,
    installBinary_rollback (InstallEnv.mk true true true true false) "/base".data
      "owner".data "repo".data "v1".data "tool".data rfl .symlinkFailed rfl⟩

theorem sorted_le_getLast : ∀ (l : List FSEntry), l.Sorted modTimeLE →
    ∀ y, l.getLast? = some y → ∀ x ∈ l, x.modTime ≤ y.modTime := by
  intro l
  induction l with
  | nil => intro _ y hy; simp at hy
  | cons a t ih =>
    intro hs y hy x hx
    cases t with
    | nil =>
      simp [List.getLast?] at hy
      simp at hx
      rw [hx, ← hy]
    | cons b u =>
      rw [List.getLast?_cons_cons] at hy
      rcases List.mem_cons.1 hx with h1 | h1
      · subst h1
        exact (List.sorted_cons.1 hs).1 y (List.mem_of_mem_getLast? hy)
      · exact ih (List.sorted_cons.1 hs).2 y hy x h1

/-- C8: with at most one installed version directory for the repo, `purge`
deletes nothing; with more than one, the deleted directories together with
one retained directory are exactly the matching version directories, and
the retained one has the most recent modification timestamp. -/
theorem purge_keeps_newest (entries : List FSEntry) (repo : List Char) :
    ((purgeVersions entries repo).length ≤ 1 → purgeDeleted entries repo = []) ∧
    (1 < (purgeVersions entries repo).length →
      ∃ kept, kept ∈ purgeVersions entries repo ∧
        (∀ v ∈ purgeVersions entries repo, v.modTime ≤ kept.modTime) ∧
        (purgeDeleted entries repo ++ [kept]).Perm (purgeVersions entries repo)) := by
  constructor
  · intro h
    simp [purgeDeleted, h]
  · intro h
    have hnotle : ¬((purgeVersions entries repo).length ≤ 1) := by omega
    have hne : List.insertionSort modTimeLE (purgeVersions entries repo) ≠ [] := by
      intro hnil
      have := List.length_insertionSort modTimeLE (purgeVersions entries repo)
      rw [hnil] at this
      simp at this
      omega
    obtain ⟨kept, hk⟩ : ∃ y,
        (List.insertionSort modTimeLE (purgeVersions entries repo)).getLast? = some y := by
      cases hgl : (List.insertionSort modTimeLE (purgeVersions entries repo)).getLast? with
      | none => exact absurd (List.getLast?_eq_none_iff.1 hgl) hne
      | some y => exact ⟨y, rfl⟩
    refine ⟨kept, ?_, ?_, ?_⟩
    · exact (List.mem_insertionSort modTimeLE).1 (List.mem_of_mem_getLast? hk)
    · intro v hv
      exact sorted_le_getLast _
        (List.sorted_insertionSort modTimeLE (purgeVersions entries repo)) kept hk v
        ((List.mem_insertionSort modTimeLE).2 hv)
    · have hdl : purgeDeleted entries repo =
          (List.insertionSort modTimeLE (purgeVersions entries repo)).dropLast := by
        simp [purgeDeleted, hnotle]
      rw [hdl, List.dropLast_append_getLast? kept hk]
      exact List.perm_insertionSort modTimeLE (purgeVersions entries repo)

theorem purge_keeps_newest_witness :
    1 < (purgeVersions [⟨"repo@v1".data, true, 1⟩, ⟨"repo@v2".data, true, 2⟩]
      "repo".data).length ∧
    (∃ kept, kept ∈ purgeVersions [⟨"repo@v1".data, true, 1⟩, ⟨"repo@v2".data, true, 2⟩]
        "repo".data ∧
      (∀ v ∈ purgeVersions [⟨"repo@v1".data, true, 1⟩, ⟨"repo@v2".data, true, 2⟩]
          "repo".data, v.modTime ≤ kept.modTime) ∧
      (purgeDeleted [⟨"repo@v1".data, true, 1⟩, ⟨"repo@v2".data, true, 2⟩]
          "repo".data ++ [kept]).Perm
        (purgeVersions [⟨"repo@v1".data, true, 1⟩, ⟨"repo@v2".data, true, 2⟩]
          "repo".data)) :=
  ⟨by decide,
    (purge_keeps_newest [⟨"repo@v1".data, true, 1⟩, ⟨"repo@v2".data, true, 2⟩]
      "repo".data).2 (by decide)⟩
